import Mathlib

/-!
# Verification of the reactivity-engine specification of LearningVuejs

This file shallowly embeds, in Lean 4, the program parts the claims are
about:

* the component code present in the repository
  (`src/ch9/src/components/ExampleFour.vue`, the watch component
  `src/unnamed/part_001`, the form component of `src/unnamed/part_002`),
  translated definition-by-definition from their `<script setup>` blocks;
* the minimal dependency-tracking reactivity engine that the
  specification describes at design level (signal store, tracking
  context, derived-value cache, effect scheduler).  The engine itself is
  not implemented in the repository — the components are only callers of
  the framework's engine — so those definitions are modelled from the
  specification's words and carry doc comments saying so.

Derivation functions of computed values are represented by a deep
expression language `Expr` over signal reads and computed reads, which
makes dependency tracking, laziness, stale-edge pruning and cycle
detection statable and decidable.
-/

namespace LearningVue

/-! ## ExampleFour.vue (src/ch9/src/components/ExampleFour.vue) -/

/-- One entry of `arrayOfObj` in `ExampleFour.vue`: `{ name, salary }`. -/
structure Person where
  name : String
  salary : Int
deriving DecidableEq, Repr

/-- The reactive array literal of `ExampleFour.vue`, lines 3–9. -/
def arrayOfObj : List Person :=
  [⟨"Ravi", 10000⟩, ⟨"Neha", 15000⟩, ⟨"Sanjay", 20000⟩,
   ⟨"Priya", 25000⟩, ⟨"Vikram", 35000⟩]

/-- The derivation function of the computed `filteringSalary`
(`ExampleFour.vue`, lines 12–14):
`arrayOfObj.filter((person) => person.salary >= 20000)`. -/
def filteringSalary (arr : List Person) : List Person :=
  arr.filter (fun person => person.salary ≥ 20000)

/-! ## The form component (src/unnamed/part_002) -/

/-- The reactive `formData` object of the form component. -/
structure FormData where
  name : String
  email : String
  message : String
deriving DecidableEq, Repr

/-- The reactive `errors` object of the form component. -/
structure Errors where
  name : String
  email : String
  message : String
deriving DecidableEq, Repr

/-- A character admitted by the regex character class `[^\s@]`:
not whitespace and not `@`. -/
def validChar (c : Char) : Bool :=
  !c.isWhitespace && c ≠ '@'

/-- Whether some `.` occurs strictly inside `l` (neither first nor last
position), i.e. `l` splits as `b ++ '.' :: c` with `b`, `c` nonempty. -/
def hasInnerDot (l : List Char) : Bool :=
  (l.drop 1).dropLast.contains '.'

/-- The email test of `validateForm` (part_002, line 52):
`/^[^\s@]+@[^\s@]+\.[^\s@]+$/.test(email)`.  The string matches iff it
decomposes as `a ++ "@" ++ b ++ "." ++ c` with `a`, `b`, `c` nonempty and
free of whitespace and `@` (the class `[^\s@]` does admit further dots).
Executably: exactly one `@`, no whitespace anywhere, a nonempty part
before the `@`, and a `.` strictly inside the part after the `@`. -/
def emailMatch (s : String) : Bool :=
  let l := s.toList
  let pre := l.takeWhile (fun c => c ≠ '@')
  let rest := l.dropWhile (fun c => c ≠ '@')
  match rest with
  | [] => false
  | _ :: post =>
      decide (pre ≠ []) && !post.contains '@' &&
      l.all (fun c => !c.isWhitespace) && hasInnerDot post

/-- `validateForm` (part_002, lines 50–56), as a pure function from the
form data to the new `errors` object and the returned boolean
`!errors.name && !errors.email && !errors.message`.  A JS string is
truthy iff nonempty, and `formData.email && regex.test(formData.email)`
is truthy iff the email is nonempty and matches. -/
def validateForm (fd : FormData) : Errors × Bool :=
  let en := if fd.name ≠ "" then "" else "Name is required."
  let ee := if fd.email ≠ "" && emailMatch fd.email then ""
            else "Valid email is required."
  let em := if fd.message ≠ "" then "" else "Message is required."
  (⟨en, ee, em⟩, decide (en = "") && decide (ee = "") && decide (em = ""))

/-- `handleSubmit` (part_002, lines 58–64): if `validateForm()` passes,
every `formData` field is reset to the empty string; otherwise
`formData` is left unchanged.  Returns the final form data together
with the `errors` object produced by the validation run. -/
def handleSubmit (fd : FormData) : FormData × Errors :=
  let res := validateForm fd
  if res.2 then (⟨"", "", ""⟩, res.1) else (fd, res.1)

/-! ## The reactivity engine, modelled from the specification

The engine (signal store, tracking context, derived-value cache and
effect scheduler) is not implemented in this repository: the components
above are only callers of the framework's built-in engine.  Every
definition below is therefore modelled from the specification's §2–§4
design, faithful to its words. -/

/-- Modelled from the spec: the engine error taxonomy (§7):
`InvalidHandle`, `CyclicDependency`; `outOfFuel` is the embedding's
bound on evaluation depth, never reached on well-formed inputs. -/
inductive Err where
  | invalidHandle : Err
  | cyclicDependency : Err
  | outOfFuel : Err
deriving DecidableEq, Repr

/-- Modelled from the spec: a derivation function of a derived
computation — a pure expression over signal reads (`sig`) and reads of
other computed values (`cmp`), with arithmetic and a conditional so
that a derivation can read a signal only sometimes (§4.2, §8.4). -/
inductive Expr where
  | lit : Int → Expr
  | sig : Nat → Expr
  | cmp : Nat → Expr
  | add : Expr → Expr → Expr
  | mul : Expr → Expr → Expr
  | cnd : Expr → Expr → Expr → Expr
deriving DecidableEq, Repr

/-- Modelled from the spec: a derived computation (§3): a derivation
function, a dirty flag (initially `true`), a cached value, the set of
signals it depends on from its last evaluation, and an invocation
counter for the derivation function (§8.2's verification device). -/
structure Comp where
  expr : Expr
  dirty : Bool
  cached : Int
  deps : List Nat
  runs : Nat
deriving DecidableEq, Repr

/-- Modelled from the spec: an effect in the `watch` form (§4.4): its
explicitly listed source signals, a disposed flag, and the retained
prior snapshot of each listed source. -/
structure Effect where
  sources : List Nat
  disposed : Bool
  prev : List Int
deriving DecidableEq, Repr

/-- Modelled from the spec: the whole reactive-graph state (§2, §3):
the signal store, the derived computations, the registered effects, the
queue of effects enqueued for the next flush (batched scheduling), the
log of callback invocations — each entry an effect id with its list of
`(old, new)` pairs, one per listed source — and the next fresh id. -/
structure Engine where
  sigs : List (Nat × Int)
  comps : List (Nat × Comp)
  effs : List (Nat × Effect)
  queue : List Nat
  log : List (Nat × List (Int × Int))
  nextId : Nat
deriving DecidableEq, Repr

/-- Association-list lookup by key (first match). -/
def alookup {α : Type} (k : Nat) : List (Nat × α) → Option α
  | [] => none
  | p :: rest => if p.1 = k then some p.2 else alookup k rest

/-- Association-list pointwise update of every entry with key `k`. -/
def aupdate {α : Type} (k : Nat) (f : α → α) :
    List (Nat × α) → List (Nat × α)
  | [] => []
  | p :: rest =>
      (if p.1 = k then (p.1, f p.2) else p) :: aupdate k f rest

/-- The empty reactive graph. -/
def Engine.empty : Engine := ⟨[], [], [], [], [], 0⟩

/-- Look up a signal's current value. -/
def Engine.findSig (st : Engine) (sid : Nat) : Option Int :=
  alookup sid st.sigs

/-- Look up a derived computation. -/
def Engine.findComp (st : Engine) (cid : Nat) : Option Comp :=
  alookup cid st.comps

/-- Look up an effect. -/
def Engine.findEff (st : Engine) (eid : Nat) : Option Effect :=
  alookup eid st.effs

/-- The invocation count of a computation's derivation function
(`0` for an unknown handle). -/
def Engine.runsOf (st : Engine) (cid : Nat) : Nat :=
  match st.findComp cid with
  | some c => c.runs
  | none => 0

/-- The number of callback invocations an effect has received. -/
def Engine.logCount (st : Engine) (eid : Nat) : Nat :=
  (st.log.filter (fun p => p.1 = eid)).length

/-- Modelled from the spec: `create(initialValue)` of the signal store
(§4.1): allocates a fresh signal, no other side effect. -/
def Engine.createSignal (st : Engine) (v : Int) : Engine × Nat :=
  ({ st with sigs := st.sigs ++ [(st.nextId, v)], nextId := st.nextId + 1 },
   st.nextId)

/-- Modelled from the spec: registering a derived computation
(Construct-computed, §6): initial state `Dirty` (§4.3), empty
dependency set, zero derivation invocations. -/
def Engine.createComputed (st : Engine) (e : Expr) : Engine × Nat :=
  let c : Comp := ⟨e, true, 0, [], 0⟩
  ({ st with comps := st.comps ++ [(st.nextId, c)], nextId := st.nextId + 1 },
   st.nextId)

/-- Modelled from the spec: the subscriber set of a signal among
effects (§4.1): the registered, not-disposed effects listing the signal
among their sources. -/
def Engine.subscribers (st : Engine) (sid : Nat) : List Nat :=
  (st.effs.filter
    (fun p => !p.2.disposed && decide (sid ∈ p.2.sources))).map (fun p => p.1)

/-- Modelled from the spec: notification of derived subscribers on a
write (§4.1, §4.3): every computation whose tracked dependency set
contains the written signal transitions to `Dirty` — a pure flag flip,
no recompute. -/
def Engine.markDirty (st : Engine) (sid : Nat) : Engine :=
  let f : Nat × Comp → Nat × Comp := fun p =>
    if sid ∈ p.2.deps then (p.1, { p.2 with dirty := true }) else p
  { st with comps := st.comps.map f }

/-- Modelled from the spec: enqueuing effect subscribers on a write
(§4.4, batched policy): each subscriber of the signal is appended to
the flush queue, with deduplication (an effect already enqueued is not
enqueued again). -/
def Engine.enqueueSubs (st : Engine) (sid : Nat) : Engine :=
  { st with queue := st.queue ++
      ((st.subscribers sid).filter (fun e => decide (e ∉ st.queue))) }

/-- Modelled from the spec: `set(id, newValue)` (§4.1): unknown id
signals `InvalidHandle`; if the new value equals the stored value the
call is a no-op (no store change, no notification, no requeue);
otherwise the value is stored, derived subscribers are marked dirty and
effect subscribers are enqueued. -/
def Engine.set (st : Engine) (sid : Nat) (v : Int) : Except Err Engine :=
  match st.findSig sid with
  | none => .error .invalidHandle
  | some old =>
      if old = v then .ok st
      else
        let st1 : Engine :=
          { st with sigs := aupdate sid (fun _ => v) st.sigs }
        .ok ((st1.markDirty sid).enqueueSubs sid)

/-- Modelled from the spec: a plain (untracked) read, `get(id)`
(§4.1). -/
def Engine.get (st : Engine) (sid : Nat) : Except Err Int :=
  match st.findSig sid with
  | none => .error .invalidHandle
  | some v => .ok v

/-- Refresh a computation after a tracked evaluation that produced
value `v` reading signals `r` (§4.2, §4.3): store the result, drop the
stale dependency set and replace it with exactly the edges recorded in
this run, transition to `Clean`, and count one derivation invocation. -/
def refreshComp (v : Int) (r : List Nat) (c : Comp) : Comp :=
  { c with cached := v, dirty := false, deps := r.dedup, runs := c.runs + 1 }

/-- Commit the outcome of a tracked evaluation to the store: the
computation `cid` is refreshed with value `v` and recorded reads `r`. -/
def commitComp (cid : Nat) (v : Int) (r : List Nat) (st : Engine) : Engine :=
  { st with comps := aupdate cid (refreshComp v r) st.comps }

/-- Modelled from the spec: tracked evaluation of a derivation
expression (§4.2).  The result carries the value, the list of signals
read and attributed to this (innermost) frame — a nested computed read
attributes its own reads to its own frame only — and the engine after
any nested recomputations.  `rc` evaluates a nested computed read and
is instantiated below with the derived-value cache at smaller fuel. -/
def evalExprWith (rc : Nat → Engine → Except Err (Int × Engine)) :
    Expr → Engine → Except Err (Int × List Nat × Engine)
  | .lit n, st => .ok (n, [], st)
  | .sig sid, st =>
      match st.findSig sid with
      | none => .error .invalidHandle
      | some v => .ok (v, [sid], st)
  | .cmp cid, st =>
      match rc cid st with
      | .error e => .error e
      | .ok (v, st1) => .ok (v, [], st1)
  | .add e1 e2, st =>
      match evalExprWith rc e1 st with
      | .error e => .error e
      | .ok (v1, r1, st1) =>
          match evalExprWith rc e2 st1 with
          | .error e => .error e
          | .ok (v2, r2, st2) => .ok (v1 + v2, r1 ++ r2, st2)
  | .mul e1 e2, st =>
      match evalExprWith rc e1 st with
      | .error e => .error e
      | .ok (v1, r1, st1) =>
          match evalExprWith rc e2 st1 with
          | .error e => .error e
          | .ok (v2, r2, st2) => .ok (v1 * v2, r1 ++ r2, st2)
  | .cnd c t e, st =>
      match evalExprWith rc c st with
      | .error er => .error er
      | .ok (vc, rc1, st1) =>
          if vc ≠ 0 then
            match evalExprWith rc t st1 with
            | .error er => .error er
            | .ok (vt, rt, st2) => .ok (vt, rc1 ++ rt, st2)
          else
            match evalExprWith rc e st1 with
            | .error er => .error er
            | .ok (ve, re, st2) => .ok (ve, rc1 ++ re, st2)

/-- Modelled from the spec: the derived-value cache's `read()` under an
active tracking stack (§4.2, §4.3).  A read of a computation already on
the evaluation stack signals `CyclicDependency` (§4.3).  If `Clean`,
the cached value is returned with no recomputation.  If `Dirty`, the
derivation is evaluated inside a fresh tracking frame, the computation
is refreshed with the recorded edges, and the value returned.  `fuel`
bounds the depth of nested computed reads; the public entry point below
supplies enough for any chain of distinct computations. -/
def evalComp : Nat → List Nat → Nat → Engine → Except Err (Int × Engine)
  | fuel, stack, cid, st =>
      if cid ∈ stack then .error .cyclicDependency
      else
        match fuel with
        | 0 => .error .outOfFuel
        | f + 1 =>
            match st.findComp cid with
            | none => .error .invalidHandle
            | some c =>
                if c.dirty then
                  match evalExprWith (evalComp f (cid :: stack)) c.expr st with
                  | .error e => .error e
                  | .ok (v, r, st1) => .ok (v, commitComp cid v r st1)
                else .ok (c.cached, st)

/-- Modelled from the spec: the public `read()` of a derived
computation (§4.3), entered with an empty tracking stack.  The fuel
`|comps| + 1` admits any acyclic chain of distinct computations. -/
def Engine.readComputed (st : Engine) (cid : Nat) :
    Except Err (Int × Engine) :=
  evalComp (st.comps.length + 1) [] cid st

/-- `read()` as observed by a caller that keeps the engine on failure:
an error is fatal only to that read, the engine state survives it
(§4.3, §7). -/
def Engine.readComputedSafe (st : Engine) (cid : Nat) :
    Except Err Int × Engine :=
  match st.readComputed cid with
  | .ok (v, st1) => (.ok v, st1)
  | .error e => (.error e, st)

/-- Current values of a list of signals, `none` if any id is unknown. -/
def Engine.getMany (st : Engine) (sids : List Nat) : Option (List Int) :=
  sids.mapM st.findSig

/-- Modelled from the spec: registering a `watch`-form effect over
explicitly listed sources (§4.4): the store retains one prior snapshot
per explicitly-watched signal; the first callback run is deferred until
the first dependency change. -/
def Engine.watch (st : Engine) (sources : List Nat) :
    Except Err (Engine × Nat) :=
  match st.getMany sources with
  | none => .error .invalidHandle
  | some vs =>
      let ef : Effect := ⟨sources, false, vs⟩
      let st1 : Engine :=
        { st with effs := st.effs ++ [(st.nextId, ef)], nextId := st.nextId + 1 }
      .ok (st1, st.nextId)

/-- Modelled from the spec: `dispose()` (§4.4): the effect is removed
from all subscriber sets and from the pending queue; afterwards no
further invocations occur. -/
def Engine.dispose (st : Engine) (eid : Nat) : Engine :=
  let effs1 := aupdate eid (fun ef => { ef with disposed := true }) st.effs
  { st with effs := effs1, queue := st.queue.filter (fun e => e ≠ eid) }

/-- Modelled from the spec: one callback invocation during a flush
(§4.4): a disposed (or unknown) effect is skipped; otherwise the
callback receives, per listed source, the retained prior value paired
with the current value, the invocation is logged, and the snapshot is
advanced to the current values. -/
def runEffect (st : Engine) (eid : Nat) : Engine :=
  match st.findEff eid with
  | none => st
  | some ef =>
      if ef.disposed then st
      else
        match st.getMany ef.sources with
        | none => st
        | some vs =>
            let effs1 := aupdate eid (fun e => { e with prev := vs }) st.effs
            { st with log := st.log ++ [(eid, ef.prev.zip vs)], effs := effs1 }

/-- Modelled from the spec: the batched flush (§4.4): all enqueued
effects are coalesced and run once per tick, in enqueue order; the
queue is cleared first so that notifications during the flush belong to
the next tick. -/
def Engine.flush (st : Engine) : Engine :=
  st.queue.foldl runEffect { st with queue := [] }

/-! ### Operation sequences

To state the temporal claims (laziness, disposal) we close the API into
an inductive type of engine operations and run lists of them. -/

/-- Modelled from the spec: one external engine operation (§6). -/
inductive Op where
  | setOp : Nat → Int → Op
  | readOp : Nat → Op
  | flushOp : Op
  | disposeOp : Nat → Op
  | createSigOp : Int → Op
  | createCompOp : Expr → Op
  | watchOp : List Nat → Op
deriving DecidableEq, Repr

/-- Run one operation; a failing call leaves the engine unchanged. -/
def Op.run (op : Op) (st : Engine) : Engine :=
  match op with
  | .setOp sid v =>
      match st.set sid v with
      | .ok st1 => st1
      | .error _ => st
  | .readOp cid => (st.readComputedSafe cid).2
  | .flushOp => st.flush
  | .disposeOp eid => st.dispose eid
  | .createSigOp v => (st.createSignal v).1
  | .createCompOp e => (st.createComputed e).1
  | .watchOp ss =>
      match st.watch ss with
      | .ok (st1, _) => st1
      | .error _ => st

/-- Run a list of operations left to right. -/
def runOps (ops : List Op) (st : Engine) : Engine :=
  ops.foldl (fun s op => op.run s) st

/-- Whether an operation reads a derived computation's output. -/
def Op.isRead : Op → Bool
  | .readOp _ => true
  | _ => false

/-- Whether an operation registers a new effect. -/
def Op.makesEffect : Op → Bool
  | .watchOp _ => true
  | _ => false

/-! ### Specification-side notions used to state the claims -/

/-- A derivation expression that reads only signals (no nested computed
reads) — the shape of §8.1's and §8.4's scenarios. -/
def Expr.sigOnly : Expr → Bool
  | .lit _ => true
  | .sig _ => true
  | .cmp _ => false
  | .add e1 e2 => e1.sigOnly && e2.sigOnly
  | .mul e1 e2 => e1.sigOnly && e2.sigOnly
  | .cnd c t e => c.sigOnly && t.sigOnly && e.sigOnly

/-- Reference semantics of a signal-only derivation over the current
signal store: the value it denotes together with the exact sequence of
signals its evaluation reads (`none` on an unknown signal or a nested
computed read).  This is the spec's pure meaning of a derivation run,
defined independently of the tracking machinery. -/
def pureEvalR (st : Engine) : Expr → Option (Int × List Nat)
  | .lit n => some (n, [])
  | .sig sid =>
      match st.findSig sid with
      | none => none
      | some v => some (v, [sid])
  | .cmp _ => none
  | .add e1 e2 =>
      match pureEvalR st e1, pureEvalR st e2 with
      | some (v1, r1), some (v2, r2) => some (v1 + v2, r1 ++ r2)
      | _, _ => none
  | .mul e1 e2 =>
      match pureEvalR st e1, pureEvalR st e2 with
      | some (v1, r1), some (v2, r2) => some (v1 * v2, r1 ++ r2)
      | _, _ => none
  | .cnd c t e =>
      match pureEvalR st c with
      | none => none
      | some (vc, rc) =>
          if vc ≠ 0 then
            match pureEvalR st t with
            | none => none
            | some (vt, rt) => some (vt, rc ++ rt)
          else
            match pureEvalR st e with
            | none => none
            | some (ve, re) => some (ve, rc ++ re)

/-- The first read performed by the evaluation of an expression is the
computed value `c`: evaluation's very first step enters `c` before any
other signal or computed access can intervene. -/
inductive FirstRead : Expr → Nat → Prop where
  | cmp (c : Nat) : FirstRead (.cmp c) c
  | add (e1 e2 : Expr) (c : Nat) :
      FirstRead e1 c → FirstRead (.add e1 e2) c
  | mul (e1 e2 : Expr) (c : Nat) :
      FirstRead e1 c → FirstRead (.mul e1 e2) c
  | cnd (e0 t e : Expr) (c : Nat) :
      FirstRead e0 c → FirstRead (.cnd e0 t e) c

/-- A chain of computations realizing a transitive cycle back to
`root`: every element of the list exists, is dirty, and its
derivation's first read is the next element of the list — the last one
reading `root` itself. -/
def cycChain (st : Engine) (root : Nat) : List Nat → Prop
  | [] => True
  | [c] =>
      ∃ cc, st.findComp c = some cc ∧ cc.dirty = true ∧
        FirstRead cc.expr root
  | c :: c' :: rest =>
      (∃ cc, st.findComp c = some cc ∧ cc.dirty = true ∧
        FirstRead cc.expr c') ∧ cycChain st root (c' :: rest)

/-- Every effect entry keyed `eid` is marked disposed. -/
def allDisposed (st : Engine) (eid : Nat) : Prop :=
  ∀ p ∈ st.effs, p.1 = eid → p.2.disposed = true

/-! ## Lemmas on association lists -/

theorem alookup_aupdate_self {α : Type} (k : Nat) (f : α → α)
    (l : List (Nat × α)) :
    alookup k (aupdate k f l) = (alookup k l).map f := by
  induction l with
  | nil => rfl
  | cons p rest ih =>
      by_cases h : p.1 = k <;> simp [aupdate, alookup, h, ih]

theorem alookup_aupdate_ne {α : Type} (k k' : Nat) (hk : k ≠ k')
    (f : α → α) (l : List (Nat × α)) :
    alookup k (aupdate k' f l) = alookup k l := by
  induction l with
  | nil => rfl
  | cons p rest ih =>
      by_cases h : p.1 = k'
      · simp [aupdate, alookup, h, Ne.symm hk, ih]
      · simp [aupdate, alookup, h, ih]

theorem alookup_append {α : Type} (k : Nat) (l l' : List (Nat × α)) :
    alookup k (l ++ l') =
      match alookup k l with
      | some a => some a
      | none => alookup k l' := by
  induction l with
  | nil => rfl
  | cons p rest ih =>
      by_cases h : p.1 = k <;> simp [alookup, h, ih]

theorem alookup_mem {α : Type} {k : Nat} {a : α} {l : List (Nat × α)}
    (h : alookup k l = some a) : (k, a) ∈ l := by
  induction l with
  | nil => simp [alookup] at h
  | cons p rest ih =>
      obtain ⟨k0, a0⟩ := p
      by_cases hp : k0 = k
      · simp [alookup, hp] at h
        subst hp
        subst h
        exact List.mem_cons_self _ _
      · simp [alookup, hp] at h
        exact List.mem_cons_of_mem _ (ih h)

theorem aupdate_idem {α : Type} (k : Nat) (f : α → α)
    (hf : ∀ a, f (f a) = f a) (l : List (Nat × α)) :
    aupdate k f (aupdate k f l) = aupdate k f l := by
  induction l with
  | nil => rfl
  | cons p rest ih =>
      by_cases h : p.1 = k <;> simp [aupdate, h, ih, hf]

theorem alookup_map_snd {α : Type} (k : Nat) (h : α → α)
    (l : List (Nat × α)) :
    alookup k (l.map (fun p => (p.1, h p.2))) = (alookup k l).map h := by
  induction l with
  | nil => rfl
  | cons p rest ih =>
      by_cases hp : p.1 = k <;> simp [alookup, hp, ih]

/-! ## Lemmas on the signal store -/

theorem markDirty_findComp (st : Engine) (sid cid : Nat) :
    (st.markDirty sid).findComp cid =
      (st.findComp cid).map
        (fun c => if sid ∈ c.deps then { c with dirty := true }
                  else c) := by
  have hf : (fun (p : Nat × Comp) =>
      if sid ∈ p.2.deps then (p.1, { p.2 with dirty := true }) else p) =
      (fun (p : Nat × Comp) =>
        (p.1, if sid ∈ p.2.deps then { p.2 with dirty := true }
              else p.2)) := by
    funext p
    by_cases h : sid ∈ p.2.deps <;> simp [h]
  simp only [Engine.markDirty, Engine.findComp, hf]
  exact alookup_map_snd cid
    (fun c => if sid ∈ c.deps then { c with dirty := true } else c) st.comps

/-- A successful `set` either found the value unchanged and did
nothing, or stored the new value, marked derived subscribers dirty and
enqueued effect subscribers. -/
theorem set_ok_cases (st : Engine) (sid : Nat) (v : Int) (st' : Engine)
    (h : st.set sid v = .ok st') :
    ∃ old, st.findSig sid = some old ∧
      ((old = v ∧ st' = st) ∨
       (old ≠ v ∧ st' =
         (({ st with sigs := aupdate sid (fun _ => v) st.sigs } :
             Engine).markDirty sid).enqueueSubs sid)) := by
  unfold Engine.set at h
  cases hfs : st.findSig sid with
  | none => rw [hfs] at h; exact absurd h (by simp)
  | some old =>
      rw [hfs] at h
      by_cases he : old = v
      · simp only [he, if_pos rfl] at h
        cases h
        exact ⟨old, rfl, .inl ⟨he, rfl⟩⟩
      · simp only [if_neg he] at h
        cases h
        exact ⟨old, rfl, .inr ⟨he, rfl⟩⟩

theorem set_shell (st : Engine) (sid : Nat) (v : Int) (st' : Engine)
    (h : st.set sid v = .ok st') :
    st'.effs = st.effs ∧ st'.log = st.log ∧ st'.nextId = st.nextId := by
  obtain ⟨old, _, hcase⟩ := set_ok_cases st sid v st' h
  rcases hcase with ⟨_, rfl⟩ | ⟨_, rfl⟩
  · exact ⟨rfl, rfl, rfl⟩
  · exact ⟨rfl, rfl, rfl⟩

theorem set_runsOf (st : Engine) (sid : Nat) (v : Int) (st' : Engine)
    (h : st.set sid v = .ok st') (cid : Nat) :
    st'.runsOf cid = st.runsOf cid := by
  obtain ⟨old, _, hcase⟩ := set_ok_cases st sid v st' h
  rcases hcase with ⟨_, rfl⟩ | ⟨_, rfl⟩
  · rfl
  · unfold Engine.runsOf
    have hq : (((({ st with sigs := aupdate sid (fun _ => v) st.sigs } :
        Engine).markDirty sid).enqueueSubs sid)).findComp cid =
        (({ st with sigs := aupdate sid (fun _ => v) st.sigs } :
          Engine).markDirty sid).findComp cid := rfl
    rw [hq, markDirty_findComp]
    have : ({ st with sigs := aupdate sid (fun _ => v) st.sigs } :
        Engine).findComp cid = st.findComp cid := rfl
    rw [this]
    cases st.findComp cid with
    | none => rfl
    | some c => by_cases hd : sid ∈ c.deps <;> simp [hd]

theorem set_findSig_self (st : Engine) (sid : Nat) (v : Int) (st' : Engine)
    (h : st.set sid v = .ok st') : st'.findSig sid = some v := by
  obtain ⟨old, hfs, hcase⟩ := set_ok_cases st sid v st' h
  rcases hcase with ⟨rfl, rfl⟩ | ⟨_, rfl⟩
  · exact hfs
  · show alookup sid (aupdate sid (fun _ => v) st.sigs) = some v
    rw [alookup_aupdate_self]
    rw [show Engine.findSig st sid = alookup sid st.sigs from rfl] at hfs
    rw [hfs]
    rfl

theorem set_findSig_ne (st : Engine) (sid : Nat) (v : Int) (st' : Engine)
    (h : st.set sid v = .ok st') (x : Nat) (hx : x ≠ sid) :
    st'.findSig x = st.findSig x := by
  obtain ⟨old, _, hcase⟩ := set_ok_cases st sid v st' h
  rcases hcase with ⟨_, rfl⟩ | ⟨_, rfl⟩
  · rfl
  · show alookup x (aupdate sid (fun _ => v) st.sigs) = alookup x st.sigs
    exact alookup_aupdate_ne x sid hx _ st.sigs

/-- A write to a signal outside a clean computation's dependency set
leaves that computation untouched: no dirty flag, no recomputation, no
notification of it (stale-edge consequence, §8.4). -/
theorem set_untracked_comp (st : Engine) (x : Nat) (v : Int) (st' : Engine)
    (h : st.set x v = .ok st') (cid : Nat) (c : Comp)
    (hc : st.findComp cid = some c) (hx : x ∉ c.deps) :
    st'.findComp cid = some c := by
  obtain ⟨old, _, hcase⟩ := set_ok_cases st x v st' h
  rcases hcase with ⟨_, rfl⟩ | ⟨_, rfl⟩
  · exact hc
  · have hq : (((({ st with sigs := aupdate x (fun _ => v) st.sigs } :
        Engine).markDirty x).enqueueSubs x)).findComp cid =
        (({ st with sigs := aupdate x (fun _ => v) st.sigs } :
          Engine).markDirty x).findComp cid := rfl
    rw [hq, markDirty_findComp]
    have : ({ st with sigs := aupdate x (fun _ => v) st.sigs } :
        Engine).findComp cid = st.findComp cid := rfl
    rw [this, hc]
    simp [hx]

/-! ## Lemmas on tracked evaluation -/

/-- A nested-read evaluator that can only touch the computations:
signals, effects, queue, log and the id counter survive it. -/
def ShellSafe (rc : Nat → Engine → Except Err (Int × Engine)) : Prop :=
  ∀ c st v st1, rc c st = .ok (v, st1) →
    st1.sigs = st.sigs ∧ st1.effs = st.effs ∧ st1.queue = st.queue ∧
    st1.log = st.log ∧ st1.nextId = st.nextId

theorem evalExprWith_shell (rc : Nat → Engine → Except Err (Int × Engine))
    (hrc : ShellSafe rc) (e : Expr) :
    ∀ st v r st1, evalExprWith rc e st = .ok (v, r, st1) →
      st1.sigs = st.sigs ∧ st1.effs = st.effs ∧ st1.queue = st.queue ∧
      st1.log = st.log ∧ st1.nextId = st.nextId := by
  induction e with
  | lit n =>
      intro st v r st1 h
      simp [evalExprWith] at h
      obtain ⟨-, -, rfl⟩ := h
      exact ⟨rfl, rfl, rfl, rfl, rfl⟩
  | sig sid =>
      intro st v r st1 h
      simp [evalExprWith] at h
      cases hfs : st.findSig sid with
      | none => rw [hfs] at h; simp at h
      | some w =>
          rw [hfs] at h
          simp at h
          obtain ⟨-, -, rfl⟩ := h
          exact ⟨rfl, rfl, rfl, rfl, rfl⟩
  | cmp cid =>
      intro st v r st1 h
      simp [evalExprWith] at h
      cases hrcv : rc cid st with
      | error e => rw [hrcv] at h; simp at h
      | ok p =>
          rw [hrcv] at h
          simp at h
          obtain ⟨h1, -, h2⟩ := h
          have := hrc cid st p.1 p.2 (by rw [hrcv])
          rw [← h2]
          exact this
  | add e1 e2 ih1 ih2 =>
      intro st v r st1 h
      simp [evalExprWith] at h
      cases h1 : evalExprWith rc e1 st with
      | error e => rw [h1] at h; simp at h
      | ok p1 =>
          rw [h1] at h
          obtain ⟨v1, r1, stm⟩ := p1
          cases h2 : evalExprWith rc e2 stm with
          | error e => simp [h2] at h
          | ok p2 =>
              obtain ⟨v2, r2, stn⟩ := p2
              simp [h2] at h
              obtain ⟨-, -, rfl⟩ := h
              obtain ⟨a1, a2, a3, a4, a5⟩ := ih1 st v1 r1 stm h1
              obtain ⟨b1, b2, b3, b4, b5⟩ := ih2 stm v2 r2 stn h2
              exact ⟨b1.trans a1, b2.trans a2, b3.trans a3,
                b4.trans a4, b5.trans a5⟩
  | mul e1 e2 ih1 ih2 =>
      intro st v r st1 h
      simp [evalExprWith] at h
      cases h1 : evalExprWith rc e1 st with
      | error e => rw [h1] at h; simp at h
      | ok p1 =>
          rw [h1] at h
          obtain ⟨v1, r1, stm⟩ := p1
          cases h2 : evalExprWith rc e2 stm with
          | error e => simp [h2] at h
          | ok p2 =>
              obtain ⟨v2, r2, stn⟩ := p2
              simp [h2] at h
              obtain ⟨-, -, rfl⟩ := h
              obtain ⟨a1, a2, a3, a4, a5⟩ := ih1 st v1 r1 stm h1
              obtain ⟨b1, b2, b3, b4, b5⟩ := ih2 stm v2 r2 stn h2
              exact ⟨b1.trans a1, b2.trans a2, b3.trans a3,
                b4.trans a4, b5.trans a5⟩
  | cnd e0 et ee ih0 iht ihe =>
      intro st v r st1 h
      simp [evalExprWith] at h
      cases h0 : evalExprWith rc e0 st with
      | error e => rw [h0] at h; simp at h
      | ok p0 =>
          rw [h0] at h
          obtain ⟨v0, r0, stm⟩ := p0
          simp only at h
          obtain ⟨a1, a2, a3, a4, a5⟩ := ih0 st v0 r0 stm h0
          by_cases hv : v0 = 0
          · rw [if_pos hv] at h
            cases h2 : evalExprWith rc ee stm with
            | error e => rw [h2] at h; simp at h
            | ok p2 =>
                obtain ⟨v2, r2, stn⟩ := p2
                rw [h2] at h
                simp at h
                obtain ⟨-, -, rfl⟩ := h
                obtain ⟨b1, b2, b3, b4, b5⟩ := ihe stm v2 r2 stn h2
                exact ⟨b1.trans a1, b2.trans a2, b3.trans a3,
                  b4.trans a4, b5.trans a5⟩
          · rw [if_neg hv] at h
            cases h2 : evalExprWith rc et stm with
            | error e => rw [h2] at h; simp at h
            | ok p2 =>
                obtain ⟨v2, r2, stn⟩ := p2
                rw [h2] at h
                simp at h
                obtain ⟨-, -, rfl⟩ := h
                obtain ⟨b1, b2, b3, b4, b5⟩ := iht stm v2 r2 stn h2
                exact ⟨b1.trans a1, b2.trans a2, b3.trans a3,
                  b4.trans a4, b5.trans a5⟩

theorem evalComp_shell (fuel : Nat) :
    ∀ stack cid st v st1, evalComp fuel stack cid st = .ok (v, st1) →
      st1.sigs = st.sigs ∧ st1.effs = st.effs ∧ st1.queue = st.queue ∧
      st1.log = st.log ∧ st1.nextId = st.nextId := by
  induction fuel with
  | zero =>
      intro stack cid st v st1 h
      rw [evalComp] at h
      by_cases hs : cid ∈ stack
      · simp [hs] at h
      · simp [hs] at h
  | succ f ih =>
      intro stack cid st v st1 h
      rw [evalComp] at h
      by_cases hs : cid ∈ stack
      · simp [hs] at h
      · simp only [hs, if_neg, if_false] at h
        cases hc : st.findComp cid with
        | none => rw [hc] at h; simp at h
        | some c =>
            rw [hc] at h
            simp only at h
            by_cases hd : c.dirty
            · rw [if_pos hd] at h
              cases he : evalExprWith (evalComp f (cid :: stack)) c.expr st with
              | error e => rw [he] at h; simp at h
              | ok p =>
                  obtain ⟨w, r, stm⟩ := p
                  rw [he] at h
                  simp at h
                  obtain ⟨-, rfl⟩ := h
                  have hb := evalExprWith_shell (evalComp f (cid :: stack))
                    (fun c' st' v' st1' hh => ih (cid :: stack) c' st' v' st1' hh)
                    c.expr st w r stm he
                  exact hb
            · rw [if_neg hd] at h
              simp at h
              obtain ⟨-, rfl⟩ := h
              exact ⟨rfl, rfl, rfl, rfl, rfl⟩

/-- Tracked evaluation of a signal-only derivation agrees with the
reference semantics `pureEvalR`: same value, exactly the recorded
signal reads, and no engine change. -/
theorem pureEvalR_eval (st : Engine) (e : Expr) :
    ∀ v r, pureEvalR st e = some (v, r) →
      ∀ rc, evalExprWith rc e st = .ok (v, r, st) := by
  induction e with
  | lit n =>
      intro v r h rc
      simp [pureEvalR] at h
      obtain ⟨rfl, rfl⟩ := h
      rfl
  | sig sid =>
      intro v r h rc
      simp only [pureEvalR] at h
      cases hfs : st.findSig sid with
      | none => rw [hfs] at h; simp at h
      | some w =>
          rw [hfs] at h
          simp at h
          obtain ⟨rfl, rfl⟩ := h
          simp [evalExprWith, hfs]
  | cmp cid =>
      intro v r h rc
      simp [pureEvalR] at h
  | add e1 e2 ih1 ih2 =>
      intro v r h rc
      simp only [pureEvalR] at h
      cases h1 : pureEvalR st e1 with
      | none => rw [h1] at h; simp at h
      | some p1 =>
          cases h2 : pureEvalR st e2 with
          | none => rw [h1, h2] at h; simp at h
          | some p2 =>
              rw [h1, h2] at h
              simp at h
              obtain ⟨rfl, rfl⟩ := h
              simp [evalExprWith, ih1 p1.1 p1.2 (by rw [h1]) rc,
                ih2 p2.1 p2.2 (by rw [h2]) rc]
  | mul e1 e2 ih1 ih2 =>
      intro v r h rc
      simp only [pureEvalR] at h
      cases h1 : pureEvalR st e1 with
      | none => rw [h1] at h; simp at h
      | some p1 =>
          cases h2 : pureEvalR st e2 with
          | none => rw [h1, h2] at h; simp at h
          | some p2 =>
              rw [h1, h2] at h
              simp at h
              obtain ⟨rfl, rfl⟩ := h
              simp [evalExprWith, ih1 p1.1 p1.2 (by rw [h1]) rc,
                ih2 p2.1 p2.2 (by rw [h2]) rc]
  | cnd e0 et ee ih0 iht ihe =>
      intro v r h rc
      simp only [pureEvalR] at h
      cases h0 : pureEvalR st e0 with
      | none => rw [h0] at h; simp at h
      | some p0 =>
          rw [h0] at h
          simp only at h
          by_cases hv : p0.1 ≠ 0
          · rw [if_pos hv] at h
            cases h2 : pureEvalR st et with
            | none => rw [h2] at h; simp at h
            | some p2 =>
                rw [h2] at h
                simp at h
                obtain ⟨rfl, rfl⟩ := h
                simp [evalExprWith, ih0 p0.1 p0.2 (by rw [h0]) rc, hv,
                  iht p2.1 p2.2 (by rw [h2]) rc]
          · rw [if_neg hv] at h
            cases h2 : pureEvalR st ee with
            | none => rw [h2] at h; simp at h
            | some p2 =>
                rw [h2] at h
                simp at h
                obtain ⟨rfl, rfl⟩ := h
                simp [evalExprWith, ih0 p0.1 p0.2 (by rw [h0]) rc, hv,
                  ihe p2.1 p2.2 (by rw [h2]) rc]

/-! ## Read lemmas shared by several claims -/

/-- A dirty computation whose derivation has pure meaning `(v, r)` in
the current store: `read()` evaluates it once, commits value `v` with
recorded reads `r`, and the refreshed entry is clean. -/
theorem read_dirty_pure (st : Engine) (cid : Nat) (c : Comp)
    (hc : st.findComp cid = some c) (hd : c.dirty = true)
    (v : Int) (r : List Nat) (hpe : pureEvalR st c.expr = some (v, r)) :
    st.readComputed cid = .ok (v, commitComp cid v r st) ∧
    (commitComp cid v r st).findComp cid = some (refreshComp v r c) := by
  constructor
  · unfold Engine.readComputed
    rw [evalComp]
    have he := pureEvalR_eval st c.expr v r hpe
      (evalComp st.comps.length (cid :: []))
    simp [hc, hd, he]
  · show alookup cid (aupdate cid (refreshComp v r) st.comps) = _
    rw [alookup_aupdate_self]
    rw [show st.findComp cid = alookup cid st.comps from rfl] at hc
    rw [hc]
    rfl

/-! ## Lemmas on operation sequences -/

theorem runsOf_eq_of_comps (st1 st2 : Engine) (h : st1.comps = st2.comps)
    (cid : Nat) : st1.runsOf cid = st2.runsOf cid := by
  unfold Engine.runsOf Engine.findComp
  rw [h]

theorem runEffect_comps (st : Engine) (e : Nat) :
    (runEffect st e).comps = st.comps := by
  unfold runEffect
  cases st.findEff e with
  | none => rfl
  | some ef =>
      by_cases hd : ef.disposed
      · simp [hd]
      · simp only [hd]
        cases st.getMany ef.sources with
        | none => simp
        | some vs => simp

theorem foldl_runEffect_comps (q : List Nat) :
    ∀ st : Engine, (q.foldl runEffect st).comps = st.comps := by
  induction q with
  | nil => intro st; rfl
  | cons e rest ih =>
      intro st
      show ((rest.foldl runEffect (runEffect st e))).comps = st.comps
      rw [ih (runEffect st e), runEffect_comps]

/-- No operation other than a `read` ever changes a derivation
invocation counter: writes, flushes, disposals and registrations only
flip flags, move queue entries or allocate. -/
theorem op_run_runsOf (op : Op) (hop : op.isRead = false) (st : Engine)
    (cid : Nat) : (op.run st).runsOf cid = st.runsOf cid := by
  cases op with
  | setOp sid v =>
      show (match st.set sid v with
            | .ok st1 => st1
            | .error _ => st).runsOf cid = st.runsOf cid
      cases hs : st.set sid v with
      | ok st1 => exact set_runsOf st sid v st1 hs cid
      | error e => rfl
  | readOp c => simp [Op.isRead] at hop
  | flushOp =>
      refine runsOf_eq_of_comps _ _ ?_ cid
      show ((st.queue.foldl runEffect { st with queue := [] })).comps = st.comps
      rw [foldl_runEffect_comps]
  | disposeOp e => rfl
  | createSigOp v => rfl
  | createCompOp e =>
      show (st.createComputed e).1.runsOf cid = st.runsOf cid
      unfold Engine.runsOf Engine.findComp Engine.createComputed
      simp only
      rw [alookup_append]
      cases alookup cid st.comps with
      | some c => rfl
      | none =>
          simp only
          by_cases hn : st.nextId = cid <;> simp [alookup, hn]
  | watchOp ss =>
      show (match st.watch ss with
            | .ok (st1, _) => st1
            | .error _ => st).runsOf cid = st.runsOf cid
      unfold Engine.watch
      cases st.getMany ss with
      | none => rfl
      | some vs => rfl

theorem runOps_runsOf (ops : List Op)
    (hops : ∀ op ∈ ops, op.isRead = false) :
    ∀ st : Engine, ∀ cid, (runOps ops st).runsOf cid = st.runsOf cid := by
  induction ops with
  | nil => intro st cid; rfl
  | cons op rest ih =>
      intro st cid
      show ((runOps rest (op.run st))).runsOf cid = st.runsOf cid
      rw [ih (fun o ho => hops o (List.mem_cons_of_mem _ ho)) (op.run st) cid,
        op_run_runsOf op (hops op (List.mem_cons_self _ _)) st cid]

/-! ## Lemmas on effect disposal -/

theorem aupdate_disposed_all (eid : Nat) (l : List (Nat × Effect)) :
    ∀ p ∈ aupdate eid (fun ef => { ef with disposed := true }) l,
      p.1 = eid → p.2.disposed = true := by
  induction l with
  | nil => intro p hp; simp [aupdate] at hp
  | cons q rest ih =>
      intro p hp hk
      rcases List.mem_cons.mp hp with hp | hp
      · by_cases hq : q.1 = eid
        · rw [hp, if_pos hq]
        · rw [hp, if_neg hq] at hk
          exact absurd hk hq
      · exact ih p hp hk

theorem aupdate_mono_disposed (eid k : Nat) (g : Effect → Effect)
    (hg : ∀ a, a.disposed = true → (g a).disposed = true)
    (l : List (Nat × Effect))
    (hall : ∀ p ∈ l, p.1 = eid → p.2.disposed = true) :
    ∀ p ∈ aupdate k g l, p.1 = eid → p.2.disposed = true := by
  induction l with
  | nil => intro p hp; simp [aupdate] at hp
  | cons q rest ih =>
      intro p hp hk
      rcases List.mem_cons.mp hp with hp | hp
      · by_cases hq : q.1 = k
        · rw [hp, if_pos hq]
          rw [hp, if_pos hq] at hk
          exact hg q.2 (hall q (List.mem_cons_self _ _) hk)
        · rw [hp, if_neg hq] at hk ⊢
          exact hall q (List.mem_cons_self _ _) hk
      · exact ih (fun p' hp' => hall p' (List.mem_cons_of_mem _ hp')) p hp hk

theorem allDisposed_of_effs_eq (st1 st2 : Engine) (h : st1.effs = st2.effs)
    (eid : Nat) (ha : allDisposed st2 eid) : allDisposed st1 eid := by
  unfold allDisposed
  rw [h]
  exact ha

theorem logCount_of_log_eq (st1 st2 : Engine) (h : st1.log = st2.log)
    (eid : Nat) : st1.logCount eid = st2.logCount eid := by
  unfold Engine.logCount
  rw [h]

theorem allDisposed_dispose_self (st : Engine) (eid : Nat) :
    allDisposed (st.dispose eid) eid := by
  intro p hp hk
  exact aupdate_disposed_all eid st.effs p hp hk

theorem findEff_disposed (st : Engine) (eid : Nat) (ef : Effect)
    (h : allDisposed st eid) (hf : st.findEff eid = some ef) :
    ef.disposed = true :=
  h (eid, ef) (alookup_mem hf) rfl

theorem runEffect_silence (eid : Nat) (st : Engine) (e : Nat)
    (h : allDisposed st eid) :
    allDisposed (runEffect st e) eid ∧
      (runEffect st e).logCount eid = st.logCount eid := by
  unfold runEffect
  cases hf : st.findEff e with
  | none => exact ⟨h, rfl⟩
  | some ef =>
      simp only
      by_cases hd : ef.disposed = true
      · rw [if_pos hd]
        exact ⟨h, rfl⟩
      · rw [if_neg hd]
        cases hm : st.getMany ef.sources with
        | none => exact ⟨h, rfl⟩
        | some vs =>
            simp only
            by_cases he : e = eid
            · subst he
              exact absurd (findEff_disposed st e ef h hf) hd
            · constructor
              · intro p hp hk
                exact aupdate_mono_disposed eid e
                  (fun a => { a with prev := vs }) (fun a ha => ha)
                  st.effs h p hp hk
              · unfold Engine.logCount
                simp [List.filter_append, he]

theorem foldl_runEffect_silence (eid : Nat) (q : List Nat) :
    ∀ st : Engine, allDisposed st eid →
      allDisposed (q.foldl runEffect st) eid ∧
      (q.foldl runEffect st).logCount eid = st.logCount eid := by
  induction q with
  | nil => intro st h; exact ⟨h, rfl⟩
  | cons e rest ih =>
      intro st h
      obtain ⟨h1, h2⟩ := runEffect_silence eid st e h
      obtain ⟨h3, h4⟩ := ih (runEffect st e) h1
      exact ⟨h3, h4.trans h2⟩

/-- Once every entry of an effect id is disposed, no operation short of
registering a fresh effect revives it or logs an invocation for it. -/
theorem op_preserves_silence (op : Op) (hop : op.makesEffect = false)
    (st : Engine) (eid : Nat) (h : allDisposed st eid) :
    allDisposed (op.run st) eid ∧
      (op.run st).logCount eid = st.logCount eid := by
  cases op with
  | setOp sid v =>
      simp only [Op.run]
      cases hs : st.set sid v with
      | ok st1 =>
          obtain ⟨he, hl, -⟩ := set_shell st sid v st1 hs
          exact ⟨allDisposed_of_effs_eq _ _ he eid h,
            logCount_of_log_eq _ _ hl eid⟩
      | error e => exact ⟨h, rfl⟩
  | readOp cidr =>
      simp only [Op.run, Engine.readComputedSafe]
      cases hr : st.readComputed cidr with
      | ok p =>
          obtain ⟨pv, pst⟩ := p
          obtain ⟨-, he, -, hl, -⟩ :=
            evalComp_shell (st.comps.length + 1) [] cidr st pv pst hr
          exact ⟨allDisposed_of_effs_eq _ _ he eid h,
            logCount_of_log_eq _ _ hl eid⟩
      | error e => exact ⟨h, rfl⟩
  | flushOp =>
      show allDisposed (st.queue.foldl runEffect { st with queue := [] }) eid ∧ _
      exact foldl_runEffect_silence eid st.queue { st with queue := [] } h
  | disposeOp e =>
      constructor
      · intro p hp hk
        exact aupdate_mono_disposed eid e
          (fun ef => { ef with disposed := true }) (fun a _ => rfl)
          st.effs h p hp hk
      · rfl
  | createSigOp v => exact ⟨h, rfl⟩
  | createCompOp e => exact ⟨h, rfl⟩
  | watchOp ss => simp [Op.makesEffect] at hop

theorem runOps_silence (ops : List Op)
    (hops : ∀ op ∈ ops, op.makesEffect = false) :
    ∀ st : Engine, ∀ eid, allDisposed st eid →
      allDisposed (runOps ops st) eid ∧
      (runOps ops st).logCount eid = st.logCount eid := by
  induction ops with
  | nil => intro st eid h; exact ⟨h, rfl⟩
  | cons op rest ih =>
      intro st eid h
      obtain ⟨h1, h2⟩ :=
        op_preserves_silence op (hops op (List.mem_cons_self _ _)) st eid h
      obtain ⟨h3, h4⟩ :=
        ih (fun o ho => hops o (List.mem_cons_of_mem _ ho)) (op.run st) eid h1
      exact ⟨h3, h4.trans h2⟩

theorem not_subscriber_of_allDisposed (st : Engine) (eid : Nat)
    (h : allDisposed st eid) (sid : Nat) : eid ∉ st.subscribers sid := by
  intro hmem
  unfold Engine.subscribers at hmem
  rw [List.mem_map] at hmem
  obtain ⟨p, hp, hfst⟩ := hmem
  rw [List.mem_filter] at hp
  obtain ⟨hpe, hflt⟩ := hp
  have := h p hpe hfst
  simp [this] at hflt

/-! ## Lemmas on cycle detection -/

/-- If the first read of an expression is the computed value `b` and
entering `b` fails, the whole evaluation fails with that error. -/
theorem firstRead_error (rc : Nat → Engine → Except Err (Int × Engine))
    (e : Expr) (b : Nat) (hfr : FirstRead e b) (st : Engine) (err : Err)
    (hrc : rc b st = .error err) :
    evalExprWith rc e st = .error err := by
  induction hfr with
  | cmp c => simp [evalExprWith, hrc]
  | add e1 e2 c hf ih => simp [evalExprWith, ih hrc]
  | mul e1 e2 c hf ih => simp [evalExprWith, ih hrc]
  | cnd e0 t e c hf ih => simp [evalExprWith, ih hrc]

/-- Entering a computation already on the tracking stack signals
`CyclicDependency` at once, whatever the remaining fuel. -/
theorem evalComp_in_stack (fuel : Nat) (stack : List Nat) (cid : Nat)
    (st : Engine) (h : cid ∈ stack) :
    evalComp fuel stack cid st = .error .cyclicDependency := by
  cases fuel with
  | zero => rw [evalComp]; simp [h]
  | succ f => rw [evalComp]; simp [h]

/-- Walking a chain of dirty computations whose first reads lead back
to a `root` already on the stack ends in `CyclicDependency`. -/
theorem cycChain_error (root : Nat) (st : Engine) (rest : List Nat) :
    ∀ c0 : Nat, cycChain st root (c0 :: rest) →
      ∀ fuel stack, root ∈ stack → rest.length < fuel →
      evalComp fuel stack c0 st = .error .cyclicDependency := by
  induction rest with
  | nil =>
      intro c0 hch fuel stack hroot hlen
      obtain ⟨cc, hfc, hd, hfr⟩ := hch
      by_cases hs : c0 ∈ stack
      · exact evalComp_in_stack fuel stack c0 st hs
      · cases fuel with
        | zero => omega
        | succ f =>
            have hin : evalComp f (c0 :: stack) root st =
                .error .cyclicDependency :=
              evalComp_in_stack f (c0 :: stack) root st
                (List.mem_cons_of_mem _ hroot)
            have h2 := firstRead_error (evalComp f (c0 :: stack)) cc.expr
              root hfr st .cyclicDependency hin
            rw [evalComp]
            simp [hs, hfc, hd, h2]
  | cons c1 rest2 ih =>
      intro c0 hch fuel stack hroot hlen
      obtain ⟨⟨cc, hfc, hd, hfr⟩, hch2⟩ := hch
      by_cases hs : c0 ∈ stack
      · exact evalComp_in_stack fuel stack c0 st hs
      · cases fuel with
        | zero => omega
        | succ f =>
            have hrec : evalComp f (c0 :: stack) c1 st =
                .error .cyclicDependency :=
              ih c1 hch2 f (c0 :: stack) (List.mem_cons_of_mem _ hroot)
                (by simp at hlen; omega)
            have h2 := firstRead_error (evalComp f (c0 :: stack)) cc.expr
              c1 hfr st .cyclicDependency hrec
            rw [evalComp]
            simp [hs, hfc, hd, h2]

/-! ## Claim theorems -/

/-- C2: for every signal id and every value `v`, if `set(id, v)` is
called when `v` equals the currently stored value, the call is a
no-op: the store's whole state is returned unchanged — in particular no
derived computation is marked dirty and no effect is enqueued. -/
theorem set_equal_noop (st : Engine) (sid : Nat) (v : Int)
    (h : st.findSig sid = some v) : st.set sid v = .ok st := by
  unfold Engine.set
  rw [h]
  simp

/-- Witness for C2: a store holding `7` at signal `0`; writing `7`
again returns the store unchanged. -/
theorem set_equal_noop_witness :
    (Engine.empty.createSignal 7).1.findSig 0 = some 7 ∧
    (Engine.empty.createSignal 7).1.set 0 7 =
      .ok (Engine.empty.createSignal 7).1 :=
  ⟨rfl, set_equal_noop (Engine.empty.createSignal 7).1 0 7 rfl⟩

/-- C1: a `read()` of a derived computation in the `Clean` state
returns the cached value without invoking the derivation function (the
engine, and hence the invocation counter, is unchanged); a `read()`
while `Dirty` evaluates the derivation in the tracking context, commits
the result — the committed entry carries the new value, is `Clean`, and
counts one more derivation invocation (`refreshComp`) — and returns
that result. -/
theorem computed_read_contract (st : Engine) (cid : Nat) (c : Comp)
    (hc : st.findComp cid = some c) :
    (c.dirty = false → st.readComputed cid = .ok (c.cached, st)) ∧
    (c.dirty = true → ∀ v r st1,
      evalExprWith (evalComp st.comps.length [cid]) c.expr st =
        .ok (v, r, st1) →
      st.readComputed cid = .ok (v, commitComp cid v r st1) ∧
      (commitComp cid v r st1).findComp cid =
        (st1.findComp cid).map (refreshComp v r)) := by
  constructor
  · intro hd
    unfold Engine.readComputed
    rw [evalComp]
    simp [hc, hd]
  · intro hd v r st1 he
    constructor
    · unfold Engine.readComputed
      rw [evalComp]
      simp [hc, hd, he]
    · show alookup cid (aupdate cid (refreshComp v r) st1.comps) = _
      rw [alookup_aupdate_self]
      rfl

/-- Witness for C1, dirty then clean: on a store holding signal `0 = 1`
and the dirty computation `1` with derivation `sig 0 * 2`, `read()`
returns `2` and commits it; reading the committed store again returns
the cached `2` with the store unchanged. -/
theorem computed_read_contract_witness :
    ((Engine.empty.createSignal 1).1.createComputed
        (.mul (.sig 0) (.lit 2))).1.readComputed 1 =
      .ok (2, commitComp 1 2 [0]
        ((Engine.empty.createSignal 1).1.createComputed
          (.mul (.sig 0) (.lit 2))).1) ∧
    (commitComp 1 2 [0]
        ((Engine.empty.createSignal 1).1.createComputed
          (.mul (.sig 0) (.lit 2))).1).readComputed 1 =
      .ok (2, commitComp 1 2 [0]
        ((Engine.empty.createSignal 1).1.createComputed
          (.mul (.sig 0) (.lit 2))).1) := by
  constructor
  · exact (((computed_read_contract
      ((Engine.empty.createSignal 1).1.createComputed
        (.mul (.sig 0) (.lit 2))).1 1 ⟨.mul (.sig 0) (.lit 2), true, 0, [], 0⟩
      rfl).2 rfl) 2 [0]
      ((Engine.empty.createSignal 1).1.createComputed
        (.mul (.sig 0) (.lit 2))).1 rfl).1
  · exact (computed_read_contract
      (commitComp 1 2 [0]
        ((Engine.empty.createSignal 1).1.createComputed
          (.mul (.sig 0) (.lit 2))).1) 1
      ⟨.mul (.sig 0) (.lit 2), false, 2, [0], 1⟩ rfl).1 rfl

/-- C5: after a tracked evaluation the computation's dependency set is
exactly the set of signals read during that run (`r.dedup`, where `r`
is the read trace of the reference semantics; stale edges from earlier
runs are dropped); consequently a write to a signal `x` outside a clean
computation's dependency set — e.g. after a run whose conditional no
longer read `x` — leaves that computation entirely untouched: still
clean, no recomputation, no notification. -/
theorem stale_edge_pruning (st : Engine) (cid : Nat) (c : Comp)
    (hc : st.findComp cid = some c) :
    (c.dirty = true → ∀ v r, pureEvalR st c.expr = some (v, r) →
      st.readComputed cid = .ok (v, commitComp cid v r st) ∧
      (commitComp cid v r st).findComp cid = some (refreshComp v r c) ∧
      (refreshComp v r c).deps = r.dedup) ∧
    (c.dirty = false → ∀ x vx st', x ∉ c.deps →
      st.set x vx = .ok st' → st'.findComp cid = some c) := by
  constructor
  · intro hd v r hpe
    obtain ⟨h1, h2⟩ := read_dirty_pure st cid c hc hd v r hpe
    exact ⟨h1, h2, rfl⟩
  · intro hd x vx st' hx hset
    exact set_untracked_comp st x vx st' hset cid c hc hx

/-- Witness for C5: the computation `2` with derivation
`if sig 0 ≠ 0 then sig 1 else 0` over signals `0 = 0`, `1 = 5`: a dirty
read evaluates the false branch, reads only signal `0`, and records
deps `[0]`; then writing `99` to the pruned signal `1` leaves the
clean computation untouched. -/
theorem stale_edge_pruning_witness :
    ((((Engine.empty.createSignal 0).1.createSignal 5).1.createComputed
        (.cnd (.sig 0) (.sig 1) (.lit 0))).1.readComputed 2 =
      .ok (0, commitComp 2 0 [0]
        (((Engine.empty.createSignal 0).1.createSignal 5).1.createComputed
          (.cnd (.sig 0) (.sig 1) (.lit 0))).1)) ∧
    ((commitComp 2 0 [0]
        (((Engine.empty.createSignal 0).1.createSignal 5).1.createComputed
          (.cnd (.sig 0) (.sig 1) (.lit 0))).1).findComp 2 =
      some ⟨.cnd (.sig 0) (.sig 1) (.lit 0), false, 0, [0], 1⟩) ∧
    (∀ st', (commitComp 2 0 [0]
        (((Engine.empty.createSignal 0).1.createSignal 5).1.createComputed
          (.cnd (.sig 0) (.sig 1) (.lit 0))).1).set 1 99 = .ok st' →
      st'.findComp 2 =
        some ⟨.cnd (.sig 0) (.sig 1) (.lit 0), false, 0, [0], 1⟩) := by
  refine ⟨?_, ?_, ?_⟩
  · exact ((stale_edge_pruning
      (((Engine.empty.createSignal 0).1.createSignal 5).1.createComputed
        (.cnd (.sig 0) (.sig 1) (.lit 0))).1 2
      ⟨.cnd (.sig 0) (.sig 1) (.lit 0), true, 0, [], 0⟩ rfl).1 rfl 0 [0]
      rfl).1
  · exact ((stale_edge_pruning
      (((Engine.empty.createSignal 0).1.createSignal 5).1.createComputed
        (.cnd (.sig 0) (.sig 1) (.lit 0))).1 2
      ⟨.cnd (.sig 0) (.sig 1) (.lit 0), true, 0, [], 0⟩ rfl).1 rfl 0 [0]
      rfl).2.1
  · intro st' hset
    exact (stale_edge_pruning
      (commitComp 2 0 [0]
        (((Engine.empty.createSignal 0).1.createSignal 5).1.createComputed
          (.cnd (.sig 0) (.sig 1) (.lit 0))).1) 2
      ⟨.cnd (.sig 0) (.sig 1) (.lit 0), false, 0, [0], 1⟩ rfl).2 rfl 1 99 st'
      (by decide) hset

/-- C3: writing new values to two distinct signals `a` and `b` in one
batch (no read between the writes) and then reading a dirty computed
`c` evaluates `c`'s derivation exactly once — the writes themselves
invoke nothing and the read adds exactly one invocation — and that
single evaluation sees both new values: the result is the derivation's
pure meaning in the store where `a ↦ va` and `b ↦ vb`. -/
theorem glitch_free_batched_read (st : Engine) (a b : Nat) (va vb : Int)
    (st1 st2 : Engine) (cid : Nat) (c : Comp)
    (hab : a ≠ b)
    (ha : st.set a va = .ok st1) (hb : st1.set b vb = .ok st2)
    (hc : st2.findComp cid = some c) (hd : c.dirty = true)
    (v : Int) (r : List Nat) (hpe : pureEvalR st2 c.expr = some (v, r)) :
    st2.findSig a = some va ∧ st2.findSig b = some vb ∧
    st2.readComputed cid = .ok (v, commitComp cid v r st2) ∧
    st2.runsOf cid = st.runsOf cid ∧
    (commitComp cid v r st2).runsOf cid = st2.runsOf cid + 1 := by
  obtain ⟨h1, h2⟩ := read_dirty_pure st2 cid c hc hd v r hpe
  refine ⟨?_, ?_, h1, ?_, ?_⟩
  · rw [set_findSig_ne st1 b vb st2 hb a hab]
    exact set_findSig_self st a va st1 ha
  · exact set_findSig_self st1 b vb st2 hb
  · rw [set_runsOf st1 b vb st2 hb cid, set_runsOf st a va st1 ha cid]
  · simp [Engine.runsOf, h2, hc, refreshComp]

/-- The three stores of the C3 witness scenario: signals `0 = 1` and
`1 = 10` with the dirty computed `2 = sig 0 + sig 1`; then after the
write `0 ← 2`; then after the write `1 ← 20`. -/
def wStC3A : Engine :=
  ⟨[(0, 1), (1, 10)], [(2, ⟨.add (.sig 0) (.sig 1), true, 0, [], 0⟩)],
   [], [], [], 3⟩

def wStC3B : Engine :=
  ⟨[(0, 2), (1, 10)], [(2, ⟨.add (.sig 0) (.sig 1), true, 0, [], 0⟩)],
   [], [], [], 3⟩

def wStC3C : Engine :=
  ⟨[(0, 2), (1, 20)], [(2, ⟨.add (.sig 0) (.sig 1), true, 0, [], 0⟩)],
   [], [], [], 3⟩

/-- Witness for C3: writing `2` to signal `0` and `20` to signal `1`
then reading computed `2` yields `22` — one derivation run seeing both
new values. -/
theorem glitch_free_batched_read_witness :
    wStC3C.findSig 0 = some 2 ∧ wStC3C.findSig 1 = some 20 ∧
    wStC3C.readComputed 2 = .ok (22, commitComp 2 22 [0, 1] wStC3C) ∧
    wStC3C.runsOf 2 = wStC3A.runsOf 2 ∧
    (commitComp 2 22 [0, 1] wStC3C).runsOf 2 = wStC3C.runsOf 2 + 1 :=
  glitch_free_batched_read wStC3A 0 1 2 20 wStC3B wStC3C 2
    ⟨.add (.sig 0) (.sig 1), true, 0, [], 0⟩
    (by decide) rfl rfl rfl rfl 22 [0, 1] rfl

/-- C4: invalidation is only a flag flip, never an eager recompute: a
write (which is what marks dependent computations `Dirty`) followed by
any sequence of operations that never reads a computed value leaves
every derivation invocation counter exactly where it was before the
write. -/
theorem invalidation_never_recomputes (st : Engine) (sid : Nat) (v : Int)
    (st1 : Engine) (h : st.set sid v = .ok st1)
    (ops : List Op) (hops : ∀ op ∈ ops, op.isRead = false) (cid : Nat) :
    (runOps ops st1).runsOf cid = st.runsOf cid := by
  rw [runOps_runsOf ops hops st1 cid]
  exact set_runsOf st sid v st1 h cid

/-- The C4 witness scenario: signal `0 = 1`, computation `1 = sig 0`
already evaluated once (clean, deps `[0]`, one run); the invalidating
write `0 ← 2` marks it dirty. -/
def wStC4 : Engine :=
  ⟨[(0, 1)], [(1, ⟨.sig 0, false, 1, [0], 1⟩)], [], [], [], 2⟩

def wStC4Inv : Engine :=
  ⟨[(0, 2)], [(1, ⟨.sig 0, true, 1, [0], 1⟩)], [], [], [], 2⟩

/-- Witness for C4: after the invalidating write and a further write, a
flush and a disposal — but no read — the invocation counter of
computation `1` still equals its pre-invalidation value `1`. -/
theorem invalidation_never_recomputes_witness :
    (runOps [.setOp 0 3, .flushOp, .disposeOp 0] wStC4Inv).runsOf 1 =
      wStC4.runsOf 1 :=
  invalidation_never_recomputes wStC4 0 2 wStC4Inv rfl
    [.setOp 0 3, .flushOp, .disposeOp 0] (by decide) 1

/-- C7: after `dispose()` the effect is out of every signal's
subscriber set; disposing again changes nothing (idempotence); and no
sequence of further operations that does not register a fresh effect —
in particular any writes to former dependency signals, flushes, reads
or further disposals — ever produces another callback invocation for
it. -/
theorem dispose_removes_and_silences (st : Engine) (eid : Nat) :
    (∀ sid, eid ∉ (st.dispose eid).subscribers sid) ∧
    (st.dispose eid).dispose eid = st.dispose eid ∧
    (∀ ops : List Op, (∀ op ∈ ops, op.makesEffect = false) →
      (runOps ops (st.dispose eid)).logCount eid =
        (st.dispose eid).logCount eid) := by
  refine ⟨?_, ?_, ?_⟩
  · intro sid
    exact not_subscriber_of_allDisposed (st.dispose eid) eid
      (allDisposed_dispose_self st eid) sid
  · unfold Engine.dispose
    simp only
    rw [aupdate_idem eid (fun ef => { ef with disposed := true })
      (fun a => rfl) st.effs]
    rw [List.filter_filter]
    simp
  · intro ops hops
    exact (runOps_silence ops hops (st.dispose eid) eid
      (allDisposed_dispose_self st eid)).2

/-- The C7 witness scenario: signal `0 = 1` and the registered watch
effect `1` on it, with one logged invocation already recorded. -/
def wStC7 : Engine :=
  ⟨[(0, 1)], [], [(1, ⟨[0], false, [1]⟩)], [], [(1, [(0, 1)])], 2⟩

/-- Witness for C7: after disposing effect `1`, it subscribes to
nothing, a second dispose is literally the same state, and a write to
its former dependency followed by a flush logs nothing new for it. -/
theorem dispose_removes_and_silences_witness :
    (1 : Nat) ∉ (wStC7.dispose 1).subscribers 0 ∧
    (wStC7.dispose 1).dispose 1 = wStC7.dispose 1 ∧
    (runOps [.setOp 0 9, .flushOp] (wStC7.dispose 1)).logCount 1 =
      (wStC7.dispose 1).logCount 1 := by
  obtain ⟨h1, h2, h3⟩ := dispose_removes_and_silences wStC7 1
  exact ⟨h1 0, h2, h3 [.setOp 0 9, .flushOp] (by decide)⟩

/-- C8: a flush that runs a pending watch-form effect hands the
callback, for each explicitly listed source, the retained prior
snapshot value paired with the source's current value, and advances the
snapshot to the current values for the next invocation. -/
theorem watch_reports_old_and_new (st : Engine) (eid : Nat) (ef : Effect)
    (vs : List Int)
    (hq : st.queue = [eid]) (he : st.findEff eid = some ef)
    (hd : ef.disposed = false) (hv : st.getMany ef.sources = some vs) :
    st.flush.log = st.log ++ [(eid, ef.prev.zip vs)] ∧
    st.flush.findEff eid = some { ef with prev := vs } ∧
    st.flush.queue = [] := by
  have hstep : st.flush = runEffect { st with queue := [] } eid := by
    unfold Engine.flush
    rw [hq]
    rfl
  have hre : runEffect { st with queue := [] } eid =
      { st with queue := [], log := st.log ++ [(eid, ef.prev.zip vs)], effs := aupdate eid (fun e => { e with prev := vs }) st.effs } := by
    unfold runEffect
    rw [show ({ st with queue := [] } : Engine).findEff eid = some ef from he]
    simp only
    rw [if_neg (by rw [hd]; exact Bool.false_ne_true)]
    rw [show ({ st with queue := [] } : Engine).getMany ef.sources =
      some vs from hv]
  rw [hstep, hre]
  refine ⟨rfl, ?_, rfl⟩
  show alookup eid (aupdate eid _ st.effs) = _
  rw [alookup_aupdate_self]
  rw [show Engine.findEff st eid = alookup eid st.effs from rfl] at he
  rw [he]
  simp [hd]

/-- The C8 witness scenario (§8.7): the watch effect `1` on signal `0`
holds snapshot `[0]`; the write `0 ← 1` has enqueued it. -/
def wStC8 : Engine :=
  ⟨[(0, 1)], [], [(1, ⟨[0], false, [0]⟩)], [1], [], 2⟩

/-- Witness for C8: flushing logs the `(old, new)` pair `(0, 1)` for
effect `1` and advances its snapshot to `[1]`. -/
theorem watch_reports_old_and_new_witness :
    wStC8.flush.log = [] ++ [(1, [((0 : Int), (1 : Int))])] ∧
    wStC8.flush.findEff 1 = some ⟨[0], false, [1]⟩ ∧
    wStC8.flush.queue = [] :=
  watch_reports_old_and_new wStC8 1 ⟨[0], false, [0]⟩ [1]
    rfl rfl rfl rfl

/-- C6: a computed value whose derivation — directly (`l = []`) or
transitively through a chain `l` of dirty computations — reads the
computed value itself during its evaluation signals `CyclicDependency`
instead of looping (the evaluator is a total function, so termination
is by construction); the error is fatal only to that read: the caller
keeps the engine exactly as it was. -/
theorem cyclic_read_raises (st : Engine) (cid : Nat) (l : List Nat)
    (hch : cycChain st cid (cid :: l))
    (hlen : l.length ≤ st.comps.length) :
    st.readComputed cid = .error .cyclicDependency ∧
    st.readComputedSafe cid = (.error .cyclicDependency, st) := by
  have hmain : st.readComputed cid = .error .cyclicDependency := by
    cases l with
    | nil =>
        obtain ⟨cc, hfc, hd, hfr⟩ := hch
        have hin : evalComp st.comps.length [cid] cid st =
            .error .cyclicDependency :=
          evalComp_in_stack _ _ _ _ (List.mem_singleton.mpr rfl)
        have h2 := firstRead_error (evalComp st.comps.length [cid]) cc.expr
          cid hfr st .cyclicDependency hin
        unfold Engine.readComputed
        rw [evalComp]
        simp [hfc, hd, h2]
    | cons c1 rest =>
        obtain ⟨⟨cc, hfc, hd, hfr⟩, hch2⟩ := hch
        have hrec : evalComp st.comps.length [cid] c1 st =
            .error .cyclicDependency :=
          cycChain_error cid st rest c1 hch2 st.comps.length [cid]
            (List.mem_singleton.mpr rfl) (by simp at hlen; omega)
        have h2 := firstRead_error (evalComp st.comps.length [cid]) cc.expr
          c1 hfr st .cyclicDependency hrec
        unfold Engine.readComputed
        rw [evalComp]
        simp [hfc, hd, h2]
  exact ⟨hmain, by simp [Engine.readComputedSafe, hmain]⟩

/-- The C6 witness scenario: the transitive cycle `0 → 1 → 0`: two
dirty computations, each of whose derivation reads the other. -/
def wStC6 : Engine :=
  ⟨[], [(0, ⟨.cmp 1, true, 0, [], 0⟩), (1, ⟨.cmp 0, true, 0, [], 0⟩)],
   [], [], [], 2⟩

/-- Witness for C6: reading computation `0` of the two-cycle raises
`CyclicDependency` and hands the caller back the untouched engine. -/
theorem cyclic_read_raises_witness :
    wStC6.readComputed 0 = .error .cyclicDependency ∧
    wStC6.readComputedSafe 0 = (.error .cyclicDependency, wStC6) :=
  cyclic_read_raises wStC6 0 [1]
    ⟨⟨⟨.cmp 1, true, 0, [], 0⟩, rfl, rfl, FirstRead.cmp 1⟩,
     ⟨⟨.cmp 0, true, 0, [], 0⟩, rfl, rfl, FirstRead.cmp 0⟩⟩
    (by decide)

/-- C9: for every state of `arrayOfObj`, the computed `filteringSalary`
is a subsequence of the array (original order preserved) containing
exactly the entries whose salary is at least `20000` — the boundary
`20000` included — and on the initial data it yields the entries for
Sanjay, Priya and Vikram. -/
theorem filteringSalary_correct :
    (∀ arr : List Person, (filteringSalary arr).Sublist arr ∧
      ∀ p : Person, p ∈ filteringSalary arr ↔ p ∈ arr ∧ p.salary ≥ 20000) ∧
    filteringSalary arrayOfObj =
      [⟨"Sanjay", 20000⟩, ⟨"Priya", 25000⟩, ⟨"Vikram", 35000⟩] := by
  constructor
  · intro arr
    refine ⟨List.filter_sublist _, ?_⟩
    intro p
    simp [filteringSalary, List.mem_filter]
  · rfl

/-- C10: `validateForm` returns `true` iff the name is nonempty, the
email is nonempty and matches the email regular expression, and the
message is nonempty; it sets the error message of each failing field
and clears it for each passing field.  `handleSubmit` clears all form
fields exactly when validation passes and leaves them unchanged
otherwise. -/
theorem validateForm_handleSubmit_correct (fd : FormData) :
    ((validateForm fd).2 = true ↔
      (fd.name ≠ "" ∧ (fd.email ≠ "" ∧ emailMatch fd.email = true) ∧
        fd.message ≠ "")) ∧
    ((validateForm fd).1.name =
      if fd.name = "" then "Name is required." else "") ∧
    ((validateForm fd).1.email =
      if fd.email ≠ "" ∧ emailMatch fd.email = true then ""
      else "Valid email is required.") ∧
    ((validateForm fd).1.message =
      if fd.message = "" then "Message is required." else "") ∧
    ((validateForm fd).2 = true →
      handleSubmit fd = (⟨"", "", ""⟩, (validateForm fd).1)) ∧
    ((validateForm fd).2 = false →
      handleSubmit fd = (fd, (validateForm fd).1)) := by
  by_cases hn : fd.name = "" <;> by_cases he : fd.email = "" <;>
    by_cases hm : fd.message = "" <;> by_cases hr : emailMatch fd.email <;>
    simp [validateForm, handleSubmit, hn, he, hm, hr]

/-- Witness for C10: a filled, valid form passes validation and is
cleared by `handleSubmit`; error fields are all empty. -/
theorem validateForm_handleSubmit_correct_witness :
    (validateForm ⟨"Jo", "a@b.c", "hi"⟩).2 = true ∧
    handleSubmit ⟨"Jo", "a@b.c", "hi"⟩ =
      (⟨"", "", ""⟩, ⟨"", "", ""⟩) := by
  refine ⟨by decide, ?_⟩
  have h := validateForm_handleSubmit_correct ⟨"Jo", "a@b.c", "hi"⟩
  have h5 := h.2.2.2.2.1 (by decide)
  rw [h5]
  decide

end LearningVue
